import Mathlib

/-!
Verification development for the AaltoASR search-space infrastructure:
the tree-structured back-off n-gram language model (TreeGram) and the
lexical prefix tree with its reference-counted history chains
(TPLexPrefixTree).  The sources provide the class headers
(src/src/TreeGram.hh, src/unnamed/part_001 = TPLexPrefixTree.hh) with the
history-record constructors inline; the remaining member-function bodies
are modelled from the specification, as marked on each definition.
-/

set_option maxHeartbeats 1000000

namespace TreeGram

/-- A gram is a word-id sequence (TreeGram.hh line 12: typedef std::deque of int). -/
abbrev Gram := List Int

/-- Modelled from the spec: TreeGram.cc is not under src/ (only TreeGram.hh is),
so the flattened trie of TreeGram::Node records (word, log_prob, back_off,
child_index, with children located by binary_search) is abstracted as a finite
map from a gram to its stored (log-probability, back-off weight) pair, together
with the designated OOV word id and m_last_gram (TreeGram.hh lines 49-58).
Log-probabilities are modelled as rationals. -/
structure Model where
  oov : Int
  entries : List (Gram × ℚ × ℚ)
  last_gram : Gram
deriving DecidableEq, Repr

/-- First entry of the association list whose gram equals the key. -/
def findEntry : List (Gram × ℚ × ℚ) → Gram → Option (ℚ × ℚ)
  | [], _ => none
  | e :: es, g => if e.1 = g then some e.2 else findEntry es g

/-- Modelled from the spec: TreeGram::find_path / find_child locate a stored
gram in the trie; on the map abstraction this is association-list lookup. -/
def lookupGram (m : Model) (g : Gram) : Option (ℚ × ℚ) :=
  findEntry m.entries g

/-- Back-off weight of a stored context; a context that is not stored
contributes a zero back-off weight. -/
def back_off_weight (m : Model) (ctx : Gram) : ℚ :=
  match lookupGram m ctx with
  | some pb => pb.2
  | none => 0

/-- Default log-probability of the OOV unigram (TreeGram.hh lines 31-33: the
OOV 1-gram exists by default with very small log-prob and zero back-off). -/
def oovDefaultLogProb : ℚ := -9999

/-- Unigram estimate: the stored unigram, terminating at the OOV entry when
the unigram is absent (spec section 7: query-time absence triggers back-off
to a shorter context, terminating at the unigram/OOV entry, which always
exists). -/
def unigram_prob (m : Model) (w : Int) : ℚ :=
  match lookupGram m [w] with
  | some pb => pb.1
  | none =>
    match lookupGram m [m.oov] with
    | some pb => pb.1
    | none => oovDefaultLogProb

/-- Modelled from the spec: TreeGram::log_prob (TreeGram.hh line 38; body not
under src/).  Standard back-off semantics: return the stored log-probability
of the deepest matching suffix context, adding the back-off weights of the
contexts that were not found, walking to shorter contexts until a match or
the unigram level is reached. -/
def log_prob (m : Model) : Gram → ℚ
  | [] => 0
  | [w] => unigram_prob m w
  | w :: x :: ws =>
    match lookupGram m (w :: x :: ws) with
    | some pb => pb.1
    | none => back_off_weight m ((w :: x :: ws).dropLast) + log_prob m (x :: ws)

/-- Strict lexicographic (word-id) order on grams, shorter sequences first. -/
def lexLess : List Int → List Int → Bool
  | [], [] => false
  | [], _ :: _ => true
  | _ :: _, [] => false
  | x :: xs, y :: ys =>
    if x < y then true
    else if x = y then lexLess xs ys
    else false

/-- Modelled from the spec: TreeGram::check_order (TreeGram.hh line 45; body
not under src/).  The OOV 1-gram may be inserted at any time; otherwise the
gram must either have the same order as the last inserted gram and be
strictly greater in lexicographic word-id order, or start the next order. -/
def check_order (m : Model) (g : Gram) : Bool :=
  if g = [m.oov] then true
  else if g.length = m.last_gram.length then lexLess m.last_gram g
  else decide (g.length = m.last_gram.length + 1)

/-- Replace the stored pair of a gram, or append the gram if absent. -/
def setEntry : List (Gram × ℚ × ℚ) → Gram → ℚ → ℚ → List (Gram × ℚ × ℚ)
  | [], g, lp, bo => [(g, lp, bo)]
  | e :: es, g, lp, bo =>
    if e.1 = g then (g, lp, bo) :: es else e :: setEntry es g lp bo

/-- Modelled from the spec: TreeGram::add_gram (TreeGram.hh line 34; body not
under src/).  Inserts one gram after the order check; an order violation is
fatal (modelled as an error value).  Updating the OOV unigram does not
advance m_last_gram. -/
def add_gram (m : Model) (g : Gram) (lp bo : ℚ) : Except String Model :=
  if check_order m g then
    if g = [m.oov] then
      Except.ok { m with entries := setEntry m.entries g lp bo }
    else
      Except.ok { m with entries := setEntry m.entries g lp bo, last_gram := g }
  else
    Except.error "TreeGram::add_gram: grams must be inserted in sorted order"

/-- True when the insertion was accepted. -/
def accepted (r : Except String Model) : Bool :=
  match r with
  | Except.ok _ => true
  | Except.error _ => false

/-- A freshly constructed model: only the default OOV unigram is stored. -/
def initial (oov : Int) : Model :=
  { oov := oov, entries := [([oov], oovDefaultLogProb, 0)], last_gram := [] }

/-- Insert a gram, keeping the old model on an order violation (used to build
concrete models whose insertions are all shown to be accepted). -/
def addOk (m : Model) (g : Gram) (lp bo : ℚ) : Model :=
  match add_gram m g lp bo with
  | Except.ok m2 => m2
  | Except.error _ => m

/-- The spec section 8 scenario model: word ids 0 = OOV, 1 = a, 2 = b, 3 = c,
4 = d; gram a has log-prob -1.0 and back-off 0.0, gram ab has -0.5 and -0.1,
gram ac has -0.7 and -0.2. -/
def scenarioModel : Model :=
  addOk (addOk (addOk (initial 0) [1] (-1) 0) [1, 2] (-1/2) (-1/10)) [1, 3] (-7/10) (-1/5)

/-- One field of the serialized byte stream: an integer field or a
(single-precision, here rational) probability field. -/
inductive Tok where
  | i (v : Int) : Tok
  | r (v : ℚ) : Tok
deriving DecidableEq, Repr

/-- A gram is serialized as its length followed by its word ids. -/
def encodeGram (g : Gram) : List Tok :=
  Tok.i (g.length : Int) :: g.map Tok.i

/-- An entry is serialized as its gram followed by log-probability and
back-off weight. -/
def encodeEntry (e : Gram × ℚ × ℚ) : List Tok :=
  encodeGram e.1 ++ [Tok.r e.2.1, Tok.r e.2.2]

/-- Modelled from the spec: TreeGram::write (TreeGram.hh line 36; body not
under src/).  Serializes a header (OOV id and entry count) followed by the
stored entries and m_last_gram, as a flat field stream. -/
def write (m : Model) : List Tok :=
  Tok.i m.oov :: Tok.i (m.entries.length : Int) ::
    ((m.entries.map encodeEntry).flatten ++ encodeGram m.last_gram)

/-- Read one integer field. -/
def readInt : List Tok → Option (Int × List Tok)
  | Tok.i v :: ts => some (v, ts)
  | _ => none

/-- Read one probability field. -/
def readRat : List Tok → Option (ℚ × List Tok)
  | Tok.r v :: ts => some (v, ts)
  | _ => none

/-- Read a run of word-id fields of known length. -/
def readWords : Nat → List Tok → Option (Gram × List Tok)
  | 0, ts => some ([], ts)
  | n+1, Tok.i v :: ts =>
    match readWords n ts with
    | some (g, rest) => some (v :: g, rest)
    | none => none
  | _+1, _ => none

/-- Read one length-prefixed gram. -/
def readGram (ts : List Tok) : Option (Gram × List Tok) :=
  match readInt ts with
  | some (len, ts1) => if 0 ≤ len then readWords len.toNat ts1 else none
  | none => none

/-- Read one serialized entry. -/
def readEntry (ts : List Tok) : Option ((Gram × ℚ × ℚ) × List Tok) :=
  match readGram ts with
  | some (g, ts1) =>
    match readRat ts1 with
    | some (lp, ts2) =>
      match readRat ts2 with
      | some (bo, ts3) => some ((g, lp, bo), ts3)
      | none => none
    | none => none
  | none => none

/-- Read a known number of serialized entries. -/
def readEntries : Nat → List Tok → Option (List (Gram × ℚ × ℚ) × List Tok)
  | 0, ts => some ([], ts)
  | n+1, ts =>
    match readEntry ts with
    | some (e, ts1) =>
      match readEntries n ts1 with
      | some (es, ts2) => some (e :: es, ts2)
      | none => none
    | none => none

/-- Modelled from the spec: TreeGram::read (TreeGram.hh line 35; body not
under src/).  Parses the header, the entries, and m_last_gram; a malformed
or incomplete stream yields no model (fatal load error). -/
def read (ts : List Tok) : Option Model :=
  match readInt ts with
  | some (oov, ts1) =>
    match readInt ts1 with
    | some (cnt, ts2) =>
      if 0 ≤ cnt then
        match readEntries cnt.toNat ts2 with
        | some (es, ts3) =>
          match readGram ts3 with
          | some (lg, ts4) =>
            if ts4 = [] then some { oov := oov, entries := es, last_gram := lg }
            else none
          | none => none
        | none => none
      else none
    | none => none
  | none => none

end TreeGram

namespace Hist

/-- One reference-counted history record in the arena model of the history
chains (spec section 9: an arena of records addressed by stable indices,
each carrying an explicit count field). -/
structure HRec where
  previous : Option Nat
  reference_count : Int
  live : Bool
deriving DecidableEq, Repr

/-- The arena of history records; indices are stable, freed records are
marked dead rather than removed. -/
abbrev Arena := List HRec

/-- Placeholder returned for an out-of-range index. -/
def dflt : HRec := { previous := none, reference_count := 0, live := false }

/-- Record at an index. -/
def getRec (a : Arena) (i : Nat) : HRec := a.getD i dflt

/-- Modelled from the spec: history.hh is not under src/ (part_001 includes
it on line 11); hist::link increments the target record's reference count
(spec sections 3 and 9). -/
def link (a : Arena) (i : Nat) : Arena :=
  a.set i { getRec a i with reference_count := (getRec a i).reference_count + 1 }

/-- Modelled from the spec: hist::unlink decrements the reference count;
decrementing it to zero releases the record and recursively unlinks its
previous record (spec section 4.3).  The fuel argument bounds the cascade;
on well-formed arenas previous links strictly decrease, so fuel i+1
suffices for record i and the fuel never runs out. -/
def unlinkFuel : Nat → Arena → Nat → Arena
  | 0, a, _ => a
  | fuel+1, a, i =>
    if (getRec a i).live then
      if (getRec a i).reference_count - 1 = 0 then
        match (getRec a i).previous with
        | some j =>
          unlinkFuel fuel (a.set i { getRec a i with reference_count := 0, live := false }) j
        | none => a.set i { getRec a i with reference_count := 0, live := false }
      else
        a.set i { getRec a i with reference_count := (getRec a i).reference_count - 1 }
    else a

/-- Release one reference to record i. -/
def unlink (a : Arena) (i : Nat) : Arena := unlinkFuel (i+1) a i

/-- Contribution of one record towards the holder count of index j: one when
the record is live and links j as its previous record. -/
def cContrib (r : HRec) (j : Nat) : Int :=
  if r.live = true ∧ r.previous = some j then 1 else 0

/-- Number of live records holding index j through their previous link. -/
def holdersZ (a : Arena) (j : Nat) : Int :=
  ∑ i in Finset.range a.length, cContrib (getRec a i) j

/-- Chain validity of one record: a live record's previous link points to an
earlier, live record (spec section 3: a chain has no cycles, each record
points strictly to an earlier one). -/
def prevOk (a : Arena) (i : Nat) : Prop :=
  match (getRec a i).previous with
  | none => True
  | some j => j < i ∧ (getRec a j).live = true

instance (a : Arena) (i : Nat) : Decidable (prevOk a i) := by
  unfold prevOk
  cases (getRec a i).previous
  · exact inferInstance
  · exact inferInstance

/-- Well-formedness of one arena slot: chain validity, the reference count
dominates the number of live child records, and dead records carry a zero
count. -/
def WfAt (a : Arena) (i : Nat) : Prop :=
  ((getRec a i).live = true → prevOk a i)
  ∧ holdersZ a i ≤ (getRec a i).reference_count
  ∧ ((getRec a i).live = false → (getRec a i).reference_count = 0)

instance (a : Arena) (i : Nat) : Decidable (WfAt a i) := by
  unfold WfAt; exact inferInstance

/-- Arena invariant. -/
def Wf (a : Arena) : Prop := ∀ i, i < a.length → WfAt a i

instance (a : Arena) : Decidable (Wf a) := Nat.decidableBallLT a.length _

/-- One link or unlink request against the arena. -/
inductive Op where
  | link (i : Nat) : Op
  | unlink (i : Nat) : Op
deriving DecidableEq, Repr

/-- One guarded operation: a link targets an existing live record; an unlink
is issued by an external holder, so the reference count strictly exceeds the
live-child holder count.  A request whose guard fails leaves the arena
unchanged. -/
def applyOp (a : Arena) : Op → Arena
  | Op.link i =>
    if i < a.length ∧ (getRec a i).live = true then link a i else a
  | Op.unlink i =>
    if i < a.length ∧ (getRec a i).live = true ∧ holdersZ a i < (getRec a i).reference_count
    then unlink a i else a

/-- Apply a sequence of link and unlink requests. -/
def applyOps (a : Arena) (ops : List Op) : Arena := ops.foldl applyOp a

end Hist

namespace TPLex

/-- TPLexPrefixTree::LMHistory (src/unnamed/part_001 lines 50-59): word_id,
lm_id, previous, reference_count, printed, word_start_frame.  Records live in
an arena addressed by index; previous is an index option.  The struct carries
no log-probability fields. -/
structure LMHistory where
  word_id : Int
  lm_id : Int
  previous : Option Nat
  reference_count : Int
  printed : Bool
  word_start_frame : Int
deriving DecidableEq, Repr

/-- Placeholder for an out-of-range arena index. -/
def dfltLM : LMHistory :=
  { word_id := 0, lm_id := 0, previous := none, reference_count := 0,
    printed := false, word_start_frame := 0 }

/-- Modelled from the spec: hist::link on an LMHistory arena (history.hh is
not under src/) increments the target record's reference count. -/
def linkLM (a : List LMHistory) (j : Nat) : List LMHistory :=
  a.set j { a.getD j dfltLM with reference_count := (a.getD j dfltLM).reference_count + 1 }

/-- Embedding of TPLexPrefixTree::LMHistory::LMHistory (src/unnamed/part_001
lines 255-266): initializes word_id and lm_id from the arguments,
reference_count to 0, printed to false, word_start_frame to 0, and links the
previous record when present.  The new record is appended to the arena. -/
def mkLMHistory (word_id lm_id : Int) (previous : Option Nat)
    (a : List LMHistory) : List LMHistory :=
  let r : LMHistory :=
    { word_id := word_id, lm_id := lm_id, previous := previous,
      reference_count := 0, printed := false, word_start_frame := 0 }
  match previous with
  | some j => linkLM a j ++ [r]
  | none => a ++ [r]

/-- TPLexPrefixTree::WordHistory (src/unnamed/part_001 lines 61-75): word_id,
end_frame, lex_node_id, lm_log_prob, am_log_prob, cum_lm_log_prob,
cum_am_log_prob, printed, previous, reference_count. -/
structure WordHistory where
  word_id : Int
  end_frame : Int
  lex_node_id : Int
  lm_log_prob : ℚ
  am_log_prob : ℚ
  cum_lm_log_prob : ℚ
  cum_am_log_prob : ℚ
  printed : Bool
  previous : Option Nat
  reference_count : Int
deriving DecidableEq, Repr

/-- Placeholder for an out-of-range arena index. -/
def dfltW : WordHistory :=
  { word_id := 0, end_frame := 0, lex_node_id := 0, lm_log_prob := 0,
    am_log_prob := 0, cum_lm_log_prob := 0, cum_am_log_prob := 0,
    printed := false, previous := none, reference_count := 0 }

/-- Modelled from the spec: hist::link on a WordHistory arena increments the
target record's reference count. -/
def linkW (a : List WordHistory) (j : Nat) : List WordHistory :=
  a.set j { a.getD j dfltW with reference_count := (a.getD j dfltW).reference_count + 1 }

/-- Embedding of TPLexPrefixTree::WordHistory::WordHistory
(src/unnamed/part_001 lines 268-279): initializes word_id and end_frame from
the arguments, the per-word and cumulative log-probabilities to 0, printed to
false, reference_count to 0; when a previous record is present it is linked
and the cumulative log-probabilities are copied from it.  lex_node_id is left
uninitialized by the source constructor and modelled as 0. -/
def mkWordHistory (word_id end_frame : Int) (previous : Option Nat)
    (a : List WordHistory) : List WordHistory :=
  match previous with
  | some j =>
    linkW a j ++
      [{ word_id := word_id, end_frame := end_frame, lex_node_id := 0,
         lm_log_prob := 0, am_log_prob := 0,
         cum_lm_log_prob := (a.getD j dfltW).cum_lm_log_prob,
         cum_am_log_prob := (a.getD j dfltW).cum_am_log_prob,
         printed := false, previous := some j, reference_count := 0 }]
  | none =>
    a ++
      [{ word_id := word_id, end_frame := end_frame, lex_node_id := 0,
         lm_log_prob := 0, am_log_prob := 0, cum_lm_log_prob := 0,
         cum_am_log_prob := 0, printed := false, previous := none,
         reference_count := 0 }]

/-- TPLexPrefixTree::StateHistory (src/unnamed/part_001 lines 77-86):
hmm_model, start_time, log_prob, previous, reference_count. -/
structure StateHistory where
  hmm_model : Int
  start_time : Int
  log_prob : ℚ
  previous : Option Nat
  reference_count : Int
deriving DecidableEq, Repr

/-- Placeholder for an out-of-range arena index. -/
def dfltS : StateHistory :=
  { hmm_model := 0, start_time := 0, log_prob := 0, previous := none,
    reference_count := 0 }

/-- Modelled from the spec: hist::link on a StateHistory arena increments the
target record's reference count. -/
def linkS (a : List StateHistory) (j : Nat) : List StateHistory :=
  a.set j { a.getD j dfltS with reference_count := (a.getD j dfltS).reference_count + 1 }

/-- Embedding of TPLexPrefixTree::StateHistory::StateHistory
(src/unnamed/part_001 lines 281-290): initializes hmm_model and start_time
from the arguments, reference_count to 0, and links the previous record when
present.  log_prob is left uninitialized by the source constructor and
modelled as 0. -/
def mkStateHistory (hmm_model start_time : Int) (previous : Option Nat)
    (a : List StateHistory) : List StateHistory :=
  let r : StateHistory :=
    { hmm_model := hmm_model, start_time := start_time, log_prob := 0,
      previous := previous, reference_count := 0 }
  match previous with
  | some j => linkS a j ++ [r]
  | none => a ++ [r]

end TPLex

namespace Lex

/-- One prefix-tree position: the optional word-id marker (-1 if interior)
and the outgoing arcs, each labelled with the acoustic-unit id it consumes
and pointing to a child node index (spec section 3, Node and Arc). -/
structure PNode where
  word_id : Int
  children : List (Nat × Nat)
deriving DecidableEq, Repr

/-- The shared graph; nodes are addressed by stable indices in node_list. -/
structure PTree where
  nodes : List PNode
deriving DecidableEq, Repr

/-- A fresh interior node. -/
def blank : PNode := { word_id := -1, children := [] }

/-- Node at an index. -/
def getNode (t : PTree) (n : Nat) : PNode := t.nodes.getD n blank

/-- First arc of a node whose unit label matches. -/
def lookupChild : List (Nat × Nat) → Nat → Option Nat
  | [], _ => none
  | c :: cs, u => if c.1 = u then some c.2 else lookupChild cs u

/-- Destination of the arc of node n labelled with unit u, when present. -/
def child (t : PTree) (n u : Nat) : Option Nat :=
  lookupChild (getNode t n).children u

/-- The distinguished root node index. -/
def rootId : Nat := 0

/-- Modelled from the spec: initialize_lex_tree (part_001 line 154
declaration; body not under src/) creates an empty graph holding the
distinguished root. -/
def initialTree : PTree := { nodes := [blank] }

/-- Extend the tree with a fresh node reached from node n by unit u. -/
def grow (t : PTree) (n u : Nat) : PTree :=
  { nodes :=
      (t.nodes.set n
        { getNode t n with
          children := (getNode t n).children ++ [(u, t.nodes.length)] }) ++ [blank] }

/-- Modelled from the spec: the body of TPLexPrefixTree::add_word /
expand_lexical_tree (part_001 lines 155 and 175-181 declarations; bodies not
under src/).  Walks the unit sequence from the current node, reusing the
existing arc whenever the node already has an arc for the unit (the sharing
rule of spec section 4.1) and otherwise creating a fresh node with an arc to
it; the node reached by the full sequence receives the word id. -/
def addFrom (t : PTree) (n : Nat) : List Nat → Int → PTree
  | [], wid => { nodes := t.nodes.set n { getNode t n with word_id := wid } }
  | u :: us, wid =>
    match child t n u with
    | some c => addFrom t c us wid
    | none => addFrom (grow t n u) t.nodes.length us wid

/-- Add one word, walking from the root. -/
def add_word (t : PTree) (units : List Nat) (wid : Int) : PTree :=
  addFrom t rootId units wid

/-- Modelled from the spec: finish_tree (part_001 line 157 declaration; body
not under src/) performs cross-word network construction, look-ahead
propagation and boundary wiring, none of which alters the word-interior arcs
created by add_word; on this word-interior model it is the identity. -/
def finish_tree (t : PTree) : PTree := t

/-- Build the tree of a vocabulary: every word added in turn, then
finish_tree. -/
def buildTree (ws : List (List Nat × Int)) : PTree :=
  finish_tree (ws.foldl (fun t w => add_word t w.1 w.2) initialTree)

/-- Node-id chain visited when a unit sequence is followed from node n; none
when some arc is missing. -/
def walk (t : PTree) (n : Nat) : List Nat → Option (List Nat)
  | [] => some []
  | u :: us =>
    match child t n u with
    | some c =>
      match walk t c us with
      | some ch => some (c :: ch)
      | none => none
    | none => none

/-- Last node of a chain that started at n. -/
def endOf (n : Nat) (ch : List Nat) : Nat := (n :: ch).getLast (List.cons_ne_nil n ch)

/-- Structural invariant of trees produced by construction: every arc stays
inside the tree and avoids the root, and every node has at most one incoming
arc (the graph is a tree along the per-word axis). -/
def Inv (t : PTree) : Prop :=
  (∀ n u c, child t n u = some c → c < t.nodes.length ∧ c ≠ rootId) ∧
  (∀ n1 u1 n2 u2 c, child t n1 u1 = some c → child t n2 u2 = some c →
    n1 = n2 ∧ u1 = u2)

end Lex

namespace CW

/-- Cross-word linking state: the arcs made between fan-out and fan-in nodes,
and the FAN_IN_CONNECTION registry of already-made links (part_001 line 36,
NODE_FAN_IN_CONNECTION; spec section 4.2). -/
structure Net where
  arcs : List (Nat × Nat)
  connections : List (Nat × Nat)
deriving DecidableEq, Repr

/-- Modelled from the spec: connect one fan-out node to one fan-in node
unless the connection registry already records the pair, in which case no
arc is added (bodies of the linking functions are not under src/). -/
def linkPair (s : Net) (o i : Nat) : Net :=
  if (o, i) ∈ s.connections then s
  else { arcs := s.arcs ++ [(o, i)], connections := s.connections ++ [(o, i)] }

/-- Modelled from the spec: link_fan_out_node_to_fan_in (part_001 line 189
declaration) connects one fan-out node to every compatible fan-in node of
the opposite registry. -/
def link_fan_out_node_to_fan_in (s : Net) (o : Nat) (ins : List Nat) : Net :=
  ins.foldl (fun s2 i => linkPair s2 o i) s

/-- Modelled from the spec: link_fan_in_nodes (part_001 line 196 declaration)
finalizes all fan-in connections once every word has contributed its
boundary nodes; each request names one fan-out node and its compatible
fan-in nodes, and distinct words sharing boundary contexts issue repeated
requests. -/
def link_fan_in_nodes (s : Net) (reqs : List (Nat × List Nat)) : Net :=
  reqs.foldl (fun s2 r => link_fan_out_node_to_fan_in s2 r.1 r.2) s

/-- The state before any cross-word linking. -/
def emptyNet : Net := { arcs := [], connections := [] }

end CW

section ListHelpers

variable {α : Type _}

theorem getD_append_left (l l2 : List α) (j : Nat) (d : α) (h : j < l.length) :
    (l ++ l2).getD j d = l.getD j d := by
  induction l generalizing j with
  | nil => simp at h
  | cons x xs ih =>
    cases j with
    | zero => rfl
    | succ k =>
      have hk : k < xs.length := by simpa using h
      simpa [List.getD] using ih k hk

theorem getD_append_length (l : List α) (r d : α) :
    (l ++ [r]).getD l.length d = r := by
  induction l with
  | nil => rfl
  | cons x xs ih => simp

theorem getD_set_self (l : List α) (j : Nat) (r d : α) (h : j < l.length) :
    (l.set j r).getD j d = r := by
  induction l generalizing j with
  | nil => simp at h
  | cons x xs ih =>
    cases j with
    | zero => rfl
    | succ k =>
      have hk : k < xs.length := by simpa using h
      simpa [List.getD] using ih k hk

theorem getD_set_ne (l : List α) (j k : Nat) (r d : α) (h : k ≠ j) :
    (l.set j r).getD k d = l.getD k d := by
  induction l generalizing j k with
  | nil => rfl
  | cons x xs ih =>
    cases j with
    | zero =>
      cases k with
      | zero => exact absurd rfl h
      | succ k2 => rfl
    | succ j2 =>
      cases k with
      | zero => rfl
      | succ k2 => simpa [List.getD] using ih j2 k2 (fun hc => h (by rw [hc]))

theorem getD_ge (l : List α) (j : Nat) (d : α) (h : l.length ≤ j) :
    l.getD j d = d := by
  induction l generalizing j with
  | nil => cases j <;> rfl
  | cons x xs ih =>
    cases j with
    | zero => simp at h
    | succ k => simpa [List.getD] using ih k (by simpa using h)

end ListHelpers

namespace TreeGram

/-- Evaluation of the scenario model built through add_gram. -/
theorem scenarioModel_eq :
    scenarioModel =
      { oov := 0,
        entries := [([0], oovDefaultLogProb, 0), ([1], -1, 0),
                    ([1, 2], -1/2, -1/10), ([1, 3], -7/10, -1/5)],
        last_gram := [1, 3] } := by
  rfl

end TreeGram

/-- C1: for every gram whose full-length context is not stored in the model,
log_prob returns the back-off-adjusted estimate from the next shorter suffix
context: the back-off weight of the full gram's context (zero when that
context is not stored) plus the estimate of the gram shortened from the
front, the recursion continuing until a stored gram or the unigram level is
reached. -/
theorem log_prob_backs_off_to_shorter_context (m : TreeGram.Model) (w x : Int)
    (ws : List Int) (h : TreeGram.lookupGram m (w :: x :: ws) = none) :
    TreeGram.log_prob m (w :: x :: ws) =
      TreeGram.back_off_weight m ((w :: x :: ws).dropLast) +
        TreeGram.log_prob m (x :: ws) := by
  simp [TreeGram.log_prob, h]

/-- Witness for C1 at the scenario model: the bigram (a, d) is not stored and
its estimate backs off to the shorter context. -/
theorem log_prob_backs_off_to_shorter_context_witness :
    TreeGram.lookupGram TreeGram.scenarioModel [1, 4] = none ∧
    TreeGram.log_prob TreeGram.scenarioModel [1, 4] =
      TreeGram.back_off_weight TreeGram.scenarioModel ([1, 4].dropLast) +
        TreeGram.log_prob TreeGram.scenarioModel [4] :=
  ⟨by rfl, log_prob_backs_off_to_shorter_context TreeGram.scenarioModel 1 4 [] (by rfl)⟩

/-- C3: inserting a gram of the same order as the previously inserted gram
that is not strictly greater in lexicographic word-id order fails fatally via
the order check, except that the designated OOV unigram may be updated at any
time. -/
theorem add_gram_rejects_order_violation :
    (∀ (m : TreeGram.Model) (g : TreeGram.Gram) (lp bo : ℚ),
        g.length = m.last_gram.length →
        TreeGram.lexLess m.last_gram g = false →
        g ≠ [m.oov] →
        TreeGram.accepted (TreeGram.add_gram m g lp bo) = false) ∧
    (∀ (m : TreeGram.Model) (lp bo : ℚ),
        TreeGram.accepted (TreeGram.add_gram m [m.oov] lp bo) = true) := by
  constructor
  · intro m g lp bo hlen hlex hne
    simp [TreeGram.add_gram, TreeGram.check_order, TreeGram.accepted, hlen, hlex, hne]
  · intro m lp bo
    simp [TreeGram.add_gram, TreeGram.check_order, TreeGram.accepted]

/-- Witness for C3: with last inserted gram (a, b), inserting (a, a) is
rejected while the OOV unigram is still accepted. -/
theorem add_gram_rejects_order_violation_witness :
    TreeGram.accepted
        (TreeGram.add_gram
          { oov := 0, entries := [([0], TreeGram.oovDefaultLogProb, 0)], last_gram := [1, 2] }
          [1, 1] (-1) 0) = false ∧
    TreeGram.accepted
        (TreeGram.add_gram
          { oov := 0, entries := [([0], TreeGram.oovDefaultLogProb, 0)], last_gram := [1, 2] }
          [0] (-5) 0) = true :=
  ⟨add_gram_rejects_order_violation.1
      { oov := 0, entries := [([0], TreeGram.oovDefaultLogProb, 0)], last_gram := [1, 2] }
      [1, 1] (-1) 0 (by rfl) (by rfl) (by decide),
   add_gram_rejects_order_violation.2
      { oov := 0, entries := [([0], TreeGram.oovDefaultLogProb, 0)], last_gram := [1, 2] }
      (-5) 0⟩

/-- C9 counterexample: in the scenario model the unseen bigram (a, d) does
not evaluate to -1.0 + -0.1; backing off for the word d cannot reuse the
unigram log-probability of a, it backs off to the OOV unigram estimate. -/
theorem scenario_unseen_bigram_value_counterexample :
    TreeGram.log_prob TreeGram.scenarioModel [1, 4] ≠ (-1 : ℚ) + (-1/10) := by
  rw [TreeGram.scenarioModel_eq]
  norm_num [TreeGram.log_prob, TreeGram.lookupGram, TreeGram.findEntry,
    TreeGram.back_off_weight, TreeGram.unigram_prob, TreeGram.oovDefaultLogProb]

/-- C9 as amended: in the scenario model, log_prob of (a, b) is -0.5, and the
unseen bigram (a, d) evaluates to the back-off weight of context a (0.0) plus
the OOV default unigram estimate, not to -1.0 + -0.1. -/
theorem scenario_log_prob_values :
    TreeGram.log_prob TreeGram.scenarioModel [1, 2] = -1/2 ∧
    TreeGram.log_prob TreeGram.scenarioModel [1, 4] =
      TreeGram.back_off_weight TreeGram.scenarioModel [1] + TreeGram.oovDefaultLogProb := by
  rw [TreeGram.scenarioModel_eq]
  norm_num [TreeGram.log_prob, TreeGram.lookupGram, TreeGram.findEntry,
    TreeGram.back_off_weight, TreeGram.unigram_prob, TreeGram.oovDefaultLogProb]

/-- C10: every freshly constructed LMHistory, WordHistory, or StateHistory
record has its own reference_count initialized to zero; only the previous
record's count changes. -/
theorem history_ctor_reference_count_zero :
    ∀ (wid lmid ef hm st : Int) (prev : Option Nat)
      (aL : List TPLex.LMHistory) (aW : List TPLex.WordHistory)
      (aS : List TPLex.StateHistory),
      ((TPLex.mkLMHistory wid lmid prev aL).getD aL.length TPLex.dfltLM).reference_count = 0 ∧
      ((TPLex.mkWordHistory wid ef prev aW).getD aW.length TPLex.dfltW).reference_count = 0 ∧
      ((TPLex.mkStateHistory hm st prev aS).getD aS.length TPLex.dfltS).reference_count = 0 := by
  intro wid lmid ef hm st prev aL aW aS
  refine ⟨?_, ?_, ?_⟩
  · cases prev with
    | none =>
      simp only [TPLex.mkLMHistory]
      rw [getD_append_length]
    | some j =>
      simp only [TPLex.mkLMHistory]
      rw [show aL.length = (TPLex.linkLM aL j).length by simp [TPLex.linkLM],
        getD_append_length]
  · cases prev with
    | none =>
      simp only [TPLex.mkWordHistory]
      rw [getD_append_length]
    | some j =>
      simp only [TPLex.mkWordHistory]
      rw [show aW.length = (TPLex.linkW aW j).length by simp [TPLex.linkW],
        getD_append_length]
  · cases prev with
    | none =>
      simp only [TPLex.mkStateHistory]
      rw [getD_append_length]
    | some j =>
      simp only [TPLex.mkStateHistory]
      rw [show aS.length = (TPLex.linkS aS j).length by simp [TPLex.linkS],
        getD_append_length]

/-- C7: each history constructor appends exactly one new record (construction
always succeeds), and when the optional previous record is present its
reference count is incremented by exactly one. -/
theorem history_ctor_links_previous :
    ∀ (wid lmid ef hm st : Int) (j : Nat)
      (aL : List TPLex.LMHistory) (aW : List TPLex.WordHistory)
      (aS : List TPLex.StateHistory),
      j < aL.length → j < aW.length → j < aS.length →
      ((TPLex.mkLMHistory wid lmid (some j) aL).length = aL.length + 1 ∧
        ((TPLex.mkLMHistory wid lmid (some j) aL).getD j TPLex.dfltLM).reference_count =
          (aL.getD j TPLex.dfltLM).reference_count + 1) ∧
      ((TPLex.mkWordHistory wid ef (some j) aW).length = aW.length + 1 ∧
        ((TPLex.mkWordHistory wid ef (some j) aW).getD j TPLex.dfltW).reference_count =
          (aW.getD j TPLex.dfltW).reference_count + 1) ∧
      ((TPLex.mkStateHistory hm st (some j) aS).length = aS.length + 1 ∧
        ((TPLex.mkStateHistory hm st (some j) aS).getD j TPLex.dfltS).reference_count =
          (aS.getD j TPLex.dfltS).reference_count + 1) ∧
      (TPLex.mkLMHistory wid lmid none aL).length = aL.length + 1 ∧
      (TPLex.mkWordHistory wid ef none aW).length = aW.length + 1 ∧
      (TPLex.mkStateHistory hm st none aS).length = aS.length + 1 := by
  intro wid lmid ef hm st j aL aW aS hL hW hS
  refine ⟨⟨?_, ?_⟩, ⟨?_, ?_⟩, ⟨?_, ?_⟩, ?_, ?_, ?_⟩
  · simp [TPLex.mkLMHistory, TPLex.linkLM]
  · simp only [TPLex.mkLMHistory]
    rw [getD_append_left _ _ _ _ (by simpa [TPLex.linkLM] using hL)]
    simp only [TPLex.linkLM]
    rw [getD_set_self _ _ _ _ hL]
  · simp [TPLex.mkWordHistory, TPLex.linkW]
  · simp only [TPLex.mkWordHistory]
    rw [getD_append_left _ _ _ _ (by simpa [TPLex.linkW] using hW)]
    simp only [TPLex.linkW]
    rw [getD_set_self _ _ _ _ hW]
  · simp [TPLex.mkStateHistory, TPLex.linkS]
  · simp only [TPLex.mkStateHistory]
    rw [getD_append_left _ _ _ _ (by simpa [TPLex.linkS] using hS)]
    simp only [TPLex.linkS]
    rw [getD_set_self _ _ _ _ hS]
  · simp [TPLex.mkLMHistory]
  · simp [TPLex.mkWordHistory]
  · simp [TPLex.mkStateHistory]

/-- Witness for C7 on singleton arenas. -/
theorem history_ctor_links_previous_witness :
    ((TPLex.mkLMHistory 1 2 (some 0) [TPLex.dfltLM]).length = 2 ∧
      ((TPLex.mkLMHistory 1 2 (some 0) [TPLex.dfltLM]).getD 0 TPLex.dfltLM).reference_count =
        ([TPLex.dfltLM].getD 0 TPLex.dfltLM).reference_count + 1) ∧
    ((TPLex.mkWordHistory 1 3 (some 0) [TPLex.dfltW]).length = 2 ∧
      ((TPLex.mkWordHistory 1 3 (some 0) [TPLex.dfltW]).getD 0 TPLex.dfltW).reference_count =
        ([TPLex.dfltW].getD 0 TPLex.dfltW).reference_count + 1) ∧
    ((TPLex.mkStateHistory 4 5 (some 0) [TPLex.dfltS]).length = 2 ∧
      ((TPLex.mkStateHistory 4 5 (some 0) [TPLex.dfltS]).getD 0 TPLex.dfltS).reference_count =
        ([TPLex.dfltS].getD 0 TPLex.dfltS).reference_count + 1) ∧
    (TPLex.mkLMHistory 1 2 none [TPLex.dfltLM]).length = 2 ∧
    (TPLex.mkWordHistory 1 3 none [TPLex.dfltW]).length = 2 ∧
    (TPLex.mkStateHistory 4 5 none [TPLex.dfltS]).length = 2 :=
  history_ctor_links_previous 1 2 3 4 5 0 [TPLex.dfltLM] [TPLex.dfltW] [TPLex.dfltS]
    (by decide) (by decide) (by decide)

/-- C6 counterexample: an lm-history record constructed from a previous
record carries exactly the constructor arguments and defaults; the LMHistory
struct has no cumulative log-probability fields, so nothing is copied forward
from the previous record. -/
theorem lmhistory_copies_no_scores_counterexample :
    TPLex.mkLMHistory 1 2 (some 0)
        [{ word_id := 9, lm_id := 8, previous := none, reference_count := 0,
           printed := true, word_start_frame := 7 }] =
      [{ word_id := 9, lm_id := 8, previous := none, reference_count := 1,
         printed := true, word_start_frame := 7 },
       { word_id := 1, lm_id := 2, previous := some 0, reference_count := 0,
         printed := false, word_start_frame := 0 }] := by
  decide

/-- C6 as amended: a newly created word-history record with a previous record
copies the cumulative language-model and acoustic log-probabilities forward
from it at creation, while a newly created lm-history record is fully
determined by the constructor arguments and carries no cumulative
log-probabilities. -/
theorem wordhistory_copies_cumulative_scores :
    (∀ (wid ef : Int) (j : Nat) (a : List TPLex.WordHistory), j < a.length →
      ((TPLex.mkWordHistory wid ef (some j) a).getD a.length TPLex.dfltW).cum_lm_log_prob =
          (a.getD j TPLex.dfltW).cum_lm_log_prob ∧
        ((TPLex.mkWordHistory wid ef (some j) a).getD a.length TPLex.dfltW).cum_am_log_prob =
          (a.getD j TPLex.dfltW).cum_am_log_prob) ∧
    (∀ (wid lmid : Int) (prev : Option Nat) (aL : List TPLex.LMHistory),
      (TPLex.mkLMHistory wid lmid prev aL).getD aL.length TPLex.dfltLM =
        { word_id := wid, lm_id := lmid, previous := prev, reference_count := 0,
          printed := false, word_start_frame := 0 }) := by
  constructor
  · intro wid ef j a hj
    constructor
    · simp only [TPLex.mkWordHistory]
      rw [show a.length = (TPLex.linkW a j).length by simp [TPLex.linkW],
        getD_append_length]
    · simp only [TPLex.mkWordHistory]
      rw [show a.length = (TPLex.linkW a j).length by simp [TPLex.linkW],
        getD_append_length]
  · intro wid lmid prev aL
    cases prev with
    | none =>
      simp only [TPLex.mkLMHistory]
      rw [getD_append_length]
    | some j =>
      simp only [TPLex.mkLMHistory]
      rw [show aL.length = (TPLex.linkLM aL j).length by simp [TPLex.linkLM],
        getD_append_length]

theorem readWords_encode (g : TreeGram.Gram) (rest : List TreeGram.Tok) :
    TreeGram.readWords g.length (g.map TreeGram.Tok.i ++ rest) = some (g, rest) := by
  induction g with
  | nil => rfl
  | cons w ws ih => simp [TreeGram.readWords, ih]

theorem readGram_encode (g : TreeGram.Gram) (rest : List TreeGram.Tok) :
    TreeGram.readGram (TreeGram.encodeGram g ++ rest) = some (g, rest) := by
  simp [TreeGram.encodeGram, TreeGram.readGram, TreeGram.readInt, readWords_encode]

theorem readEntry_encode (e : TreeGram.Gram × ℚ × ℚ) (rest : List TreeGram.Tok) :
    TreeGram.readEntry (TreeGram.encodeEntry e ++ rest) = some (e, rest) := by
  obtain ⟨g, lp, bo⟩ := e
  simp [TreeGram.encodeEntry, TreeGram.readEntry, List.append_assoc, readGram_encode,
    TreeGram.readRat]

theorem readEntries_encode (es : List (TreeGram.Gram × ℚ × ℚ)) (rest : List TreeGram.Tok) :
    TreeGram.readEntries es.length ((es.map TreeGram.encodeEntry).flatten ++ rest) =
      some (es, rest) := by
  induction es generalizing rest with
  | nil => rfl
  | cons e es2 ih =>
    simp [TreeGram.readEntries, List.append_assoc, readEntry_encode, ih]

theorem read_write (m : TreeGram.Model) : TreeGram.read (TreeGram.write m) = some m := by
  obtain ⟨oov, entries, lg⟩ := m
  have hg : TreeGram.readGram (TreeGram.encodeGram lg) = some (lg, []) := by
    have := readGram_encode lg []
    simpa using this
  simp [TreeGram.write, TreeGram.read, TreeGram.readInt, readEntries_encode, hg]

/-- C2: writing a model and reading the result back yields a model in which
every gram has the identical stored log-probability and back-off weight, and
log_prob agrees with the original model on every gram. -/
theorem write_read_round_trip :
    ∀ m : TreeGram.Model,
      TreeGram.read (TreeGram.write m) = some m ∧
      (∀ g : TreeGram.Gram,
        (TreeGram.read (TreeGram.write m)).map (fun m2 => TreeGram.lookupGram m2 g) =
          some (TreeGram.lookupGram m g)) ∧
      (∀ g : TreeGram.Gram,
        (TreeGram.read (TreeGram.write m)).map (fun m2 => TreeGram.log_prob m2 g) =
          some (TreeGram.log_prob m g)) := by
  intro m
  refine ⟨read_write m, ?_, ?_⟩ <;> intro g <;> rw [read_write m] <;> rfl

theorem linkPair_inv (s : CW.Net) (o i : Nat)
    (h1 : s.connections = s.arcs) (h2 : s.arcs.Nodup) :
    (CW.linkPair s o i).connections = (CW.linkPair s o i).arcs ∧
      (CW.linkPair s o i).arcs.Nodup := by
  unfold CW.linkPair
  by_cases hm : (o, i) ∈ s.connections
  · rw [if_pos hm]
    exact ⟨h1, h2⟩
  · rw [if_neg hm]
    refine ⟨by simp [h1], ?_⟩
    have hna : (o, i) ∉ s.arcs := h1 ▸ hm
    simp [List.nodup_append, h2, hna]

theorem link_fan_out_inv (ins : List Nat) (s : CW.Net) (o : Nat)
    (h1 : s.connections = s.arcs) (h2 : s.arcs.Nodup) :
    (CW.link_fan_out_node_to_fan_in s o ins).connections =
        (CW.link_fan_out_node_to_fan_in s o ins).arcs ∧
      (CW.link_fan_out_node_to_fan_in s o ins).arcs.Nodup := by
  induction ins generalizing s with
  | nil => exact ⟨h1, h2⟩
  | cons i ins2 ih =>
    have hstep := linkPair_inv s o i h1 h2
    exact ih (CW.linkPair s o i) hstep.1 hstep.2

theorem link_fan_in_nodes_inv (reqs : List (Nat × List Nat)) (s : CW.Net)
    (h1 : s.connections = s.arcs) (h2 : s.arcs.Nodup) :
    (CW.link_fan_in_nodes s reqs).connections = (CW.link_fan_in_nodes s reqs).arcs ∧
      (CW.link_fan_in_nodes s reqs).arcs.Nodup := by
  induction reqs generalizing s with
  | nil => exact ⟨h1, h2⟩
  | cons r reqs2 ih =>
    have hstep := link_fan_out_inv r.2 s r.1 h1 h2
    exact ih (CW.link_fan_out_node_to_fan_in s r.1 r.2) hstep.1 hstep.2

theorem count_le_one_of_nodup (l : List (Nat × Nat)) (h : l.Nodup) (p : Nat × Nat) :
    l.count p ≤ 1 := by
  induction l with
  | nil => simp
  | cons x xs ih =>
    have hx : x ∉ xs := (List.nodup_cons.mp h).1
    have hxs : xs.Nodup := (List.nodup_cons.mp h).2
    by_cases hpx : p = x
    · subst hpx
      rw [List.count_cons_self]
      have h0 : xs.count p = 0 := List.count_eq_zero_of_not_mem hx
      omega
    · rw [List.count_cons_of_ne hpx]
      exact ih hxs

/-- C8: after cross-word linking completes, every (fan-out node, fan-in node)
pair is connected by at most one arc, for any sequence of link requests
(including the repeated requests issued when several words share both
boundary contexts), starting from any state whose connection registry matches
its duplicate-free arc list. -/
theorem cross_word_linking_no_duplicate_arcs
    (s : CW.Net) (reqs : List (Nat × List Nat)) (p : Nat × Nat)
    (h1 : s.connections = s.arcs) (h2 : s.arcs.Nodup) :
    (CW.link_fan_in_nodes s reqs).arcs.count p ≤ 1 :=
  count_le_one_of_nodup _ (link_fan_in_nodes_inv reqs s h1 h2).2 p

/-- Witness for C8: two words sharing the fan-out node 1 and fan-in node 2
both request the (1, 2) link; only one arc results. -/
theorem cross_word_linking_no_duplicate_arcs_witness :
    (CW.link_fan_in_nodes CW.emptyNet [(1, [2, 3]), (1, [2])]).arcs.count (1, 2) ≤ 1 :=
  cross_word_linking_no_duplicate_arcs CW.emptyNet [(1, [2, 3]), (1, [2])] (1, 2)
    rfl (by decide)

/-- Witness for the amended C6 on a singleton arena with nonzero cumulative
scores. -/
theorem wordhistory_copies_cumulative_scores_witness :
    (((TPLex.mkWordHistory 5 6 (some 0)
          [{ TPLex.dfltW with cum_lm_log_prob := 3, cum_am_log_prob := 4 }]).getD 1
          TPLex.dfltW).cum_lm_log_prob =
        (([{ TPLex.dfltW with cum_lm_log_prob := 3, cum_am_log_prob := 4 }].getD 0
          TPLex.dfltW).cum_lm_log_prob) ∧
      ((TPLex.mkWordHistory 5 6 (some 0)
          [{ TPLex.dfltW with cum_lm_log_prob := 3, cum_am_log_prob := 4 }]).getD 1
          TPLex.dfltW).cum_am_log_prob =
        (([{ TPLex.dfltW with cum_lm_log_prob := 3, cum_am_log_prob := 4 }].getD 0
          TPLex.dfltW).cum_am_log_prob)) ∧
    (TPLex.mkLMHistory 7 8 (some 0) [TPLex.dfltLM]).getD 1 TPLex.dfltLM =
      { word_id := 7, lm_id := 8, previous := some 0, reference_count := 0,
        printed := false, word_start_frame := 0 } :=
  ⟨wordhistory_copies_cumulative_scores.1 5 6 0
      [{ TPLex.dfltW with cum_lm_log_prob := 3, cum_am_log_prob := 4 }] (by decide),
   wordhistory_copies_cumulative_scores.2 7 8 (some 0) [TPLex.dfltLM]⟩

theorem getD_set_general {α : Type _} (l : List α) (n m : Nat) (r d : α) :
    (l.set n r).getD m d = if m = n ∧ n < l.length then r else l.getD m d := by
  by_cases h1 : m = n
  · subst h1
    by_cases h2 : m < l.length
    · rw [if_pos ⟨rfl, h2⟩, getD_set_self l m r d h2]
    · rw [if_neg (by tauto), List.set_eq_of_length_le (by omega)]
  · rw [if_neg (by tauto), getD_set_ne l n m r d h1]

theorem lex_getNode_set (t : Lex.PTree) (n m : Nat) (r : Lex.PNode) :
    Lex.getNode { nodes := t.nodes.set n r } m =
      if m = n ∧ n < t.nodes.length then r else Lex.getNode t m :=
  getD_set_general t.nodes n m r Lex.blank

theorem lex_child_set_preserve (t : Lex.PTree) (n : Nat) (r : Lex.PNode)
    (hr : r.children = (Lex.getNode t n).children) (m u : Nat) :
    Lex.child { nodes := t.nodes.set n r } m u = Lex.child t m u := by
  unfold Lex.child
  rw [lex_getNode_set]
  by_cases h : m = n ∧ n < t.nodes.length
  · rw [if_pos h, hr, h.1]
  · rw [if_neg h]

theorem lookupChild_append_single (l : List (Nat × Nat)) (u c v : Nat) :
    Lex.lookupChild (l ++ [(u, c)]) v =
      match Lex.lookupChild l v with
      | some d => some d
      | none => if v = u then some c else none := by
  induction l with
  | nil =>
    simp only [List.nil_append, Lex.lookupChild]
    by_cases h : u = v
    · rw [if_pos h, if_pos h.symm]
    · rw [if_neg h, if_neg (fun hc => h hc.symm)]
  | cons hd tl ih =>
    simp only [List.cons_append, Lex.lookupChild, List.append_eq]
    by_cases h : hd.1 = v
    · rw [if_pos h, if_pos h]
    · rw [if_neg h, if_neg h, ih]

theorem getD_append_length2 {α : Type _} (l : List α) (r d : α) (j : Nat)
    (h : j = l.length) : (l ++ [r]).getD j d = r := by
  subst h
  exact getD_append_length l r d

theorem lex_getNode_grow (t : Lex.PTree) (n u m : Nat) :
    Lex.getNode (Lex.grow t n u) m =
      if m = n ∧ n < t.nodes.length then
        { Lex.getNode t n with
          children := (Lex.getNode t n).children ++ [(u, t.nodes.length)] }
      else Lex.getNode t m := by
  unfold Lex.grow Lex.getNode
  by_cases hlt : m < t.nodes.length
  · rw [getD_append_left _ _ _ _ (by simpa using hlt)]
    exact getD_set_general t.nodes n m _ Lex.blank
  · rw [if_neg (by rintro ⟨h1, h2⟩; omega)]
    by_cases heq : m = t.nodes.length
    · rw [getD_append_length2 _ _ _ _ (by simp [heq]), getD_ge t.nodes _ _ (by omega)]
    · rw [getD_ge _ _ _ (by simp; omega), getD_ge t.nodes _ _ (by omega)]

theorem lex_child_grow (t : Lex.PTree) (n u m v : Nat) :
    Lex.child (Lex.grow t n u) m v =
      if m = n ∧ n < t.nodes.length then
        (match Lex.child t n v with
         | some c => some c
         | none => if v = u then some t.nodes.length else none)
      else Lex.child t m v := by
  unfold Lex.child
  rw [lex_getNode_grow]
  by_cases h : m = n ∧ n < t.nodes.length
  · rw [if_pos h, if_pos h]
    exact lookupChild_append_single (Lex.getNode t n).children u t.nodes.length v
  · rw [if_neg h, if_neg h]

theorem lex_addFrom_nil (t : Lex.PTree) (n : Nat) (wid : Int) :
    Lex.addFrom t n [] wid =
      { nodes := t.nodes.set n { Lex.getNode t n with word_id := wid } } := rfl

theorem lex_addFrom_cons_found (t : Lex.PTree) (n v c : Nat) (vs : List Nat) (wid : Int)
    (hc : Lex.child t n v = some c) :
    Lex.addFrom t n (v :: vs) wid = Lex.addFrom t c vs wid := by
  simp [Lex.addFrom, hc]

theorem lex_addFrom_cons_new (t : Lex.PTree) (n v : Nat) (vs : List Nat) (wid : Int)
    (hc : Lex.child t n v = none) :
    Lex.addFrom t n (v :: vs) wid = Lex.addFrom (Lex.grow t n v) t.nodes.length vs wid := by
  simp [Lex.addFrom, hc]

theorem lex_child_addFrom (us : List Nat) (wid : Int) (t : Lex.PTree) (n m u c : Nat)
    (h : Lex.child t m u = some c) :
    Lex.child (Lex.addFrom t n us wid) m u = some c := by
  induction us generalizing t n with
  | nil =>
    rw [lex_addFrom_nil,
      lex_child_set_preserve t n { Lex.getNode t n with word_id := wid } rfl m u]
    exact h
  | cons v vs ih =>
    cases hc : Lex.child t n v with
    | some d =>
      rw [lex_addFrom_cons_found t n v d vs wid hc]
      exact ih t d h
    | none =>
      rw [lex_addFrom_cons_new t n v vs wid hc]
      apply ih
      rw [lex_child_grow]
      by_cases hm : m = n ∧ n < t.nodes.length
      · rw [if_pos hm]
        have h2 : Lex.child t n u = some c := by rw [← hm.1]; exact h
        rw [h2]
      · rw [if_neg hm]
        exact h

theorem lex_walk_nil (t : Lex.PTree) (n : Nat) : Lex.walk t n [] = some [] := rfl

theorem walk_cons_inv {t : Lex.PTree} {m v : Nat} {p ch : List Nat}
    (h : Lex.walk t m (v :: p) = some ch) :
    ∃ c ch2, Lex.child t m v = some c ∧ Lex.walk t c p = some ch2 ∧ ch = c :: ch2 := by
  unfold Lex.walk at h
  cases hc : Lex.child t m v with
  | none =>
    simp only [hc] at h
    exact Option.noConfusion h
  | some c =>
    simp only [hc] at h
    cases hw : Lex.walk t c p with
    | none =>
      simp only [hw] at h
      exact Option.noConfusion h
    | some ch2 =>
      simp only [hw] at h
      refine ⟨c, ch2, rfl, hw, ?_⟩
      injection h with h2
      exact h2.symm

theorem lex_walk_cons (t : Lex.PTree) (m v c : Nat) (p ch : List Nat)
    (hc : Lex.child t m v = some c) (hw : Lex.walk t c p = some ch) :
    Lex.walk t m (v :: p) = some (c :: ch) := by
  simp [Lex.walk, hc, hw]

theorem lex_walk_addFrom (p us : List Nat) (wid : Int) (t : Lex.PTree)
    (n m : Nat) (ch : List Nat) (h : Lex.walk t m p = some ch) :
    Lex.walk (Lex.addFrom t n us wid) m p = some ch := by
  induction p generalizing m ch with
  | nil =>
    rw [lex_walk_nil] at h
    injection h with h2
    subst h2
    exact lex_walk_nil _ _
  | cons v p2 ih =>
    obtain ⟨c, ch2, hc, hw, hch⟩ := walk_cons_inv h
    subst hch
    exact lex_walk_cons _ _ _ _ _ _ (lex_child_addFrom us wid t n m v c hc) (ih c ch2 hw)

theorem lex_child_grow_cases (t : Lex.PTree) (n v m u c : Nat)
    (h : Lex.child (Lex.grow t n v) m u = some c) :
    Lex.child t m u = some c ∨
      (m = n ∧ u = v ∧ c = t.nodes.length ∧ n < t.nodes.length) := by
  rw [lex_child_grow] at h
  by_cases hm : m = n ∧ n < t.nodes.length
  · rw [if_pos hm] at h
    split at h
    · rename_i d heq
      injection h with h2
      subst h2
      left
      rw [hm.1]
      exact heq
    · rename_i heq
      by_cases hu : u = v
      · rw [if_pos hu] at h
        injection h with h2
        right
        exact ⟨hm.1, hu, h2.symm, hm.2⟩
      · rw [if_neg hu] at h
        cases h
  · rw [if_neg hm] at h
    left
    exact h

theorem lex_grow_length (t : Lex.PTree) (n v : Nat) :
    (Lex.grow t n v).nodes.length = t.nodes.length + 1 := by
  simp [Lex.grow]

theorem lex_inv_grow (t : Lex.PTree) (n v : Nat) (hI : Lex.Inv t) :
    Lex.Inv (Lex.grow t n v) := by
  obtain ⟨hb, hinj⟩ := hI
  constructor
  · intro m u c h
    rcases lex_child_grow_cases t n v m u c h with hold | ⟨h1, h2, h3, h4⟩
    · obtain ⟨hc1, hc2⟩ := hb m u c hold
      refine ⟨?_, hc2⟩
      rw [lex_grow_length]
      omega
    · subst h3
      constructor
      · rw [lex_grow_length]
        omega
      · intro hr
        rw [show Lex.rootId = 0 from rfl] at hr
        omega
  · intro m1 u1 m2 u2 c h1 h2
    rcases lex_child_grow_cases t n v m1 u1 c h1 with ha | ⟨ha1, ha2, ha3, ha4⟩
    · rcases lex_child_grow_cases t n v m2 u2 c h2 with hb2 | ⟨hb1, hb2, hb3, hb4⟩
      · exact hinj m1 u1 m2 u2 c ha hb2
      · exfalso
        have hbd := hb m1 u1 c ha
        omega
    · rcases lex_child_grow_cases t n v m2 u2 c h2 with hb2 | ⟨hb1, hb2, hb3, hb4⟩
      · exfalso
        have hbd := hb m2 u2 c hb2
        omega
      · exact ⟨ha1.trans hb1.symm, ha2.trans hb2.symm⟩

theorem lex_inv_set_word (t : Lex.PTree) (n : Nat) (wid : Int) (hI : Lex.Inv t) :
    Lex.Inv { nodes := t.nodes.set n { Lex.getNode t n with word_id := wid } } := by
  obtain ⟨hb, hinj⟩ := hI
  constructor
  · intro m u c h
    rw [lex_child_set_preserve t n { Lex.getNode t n with word_id := wid } rfl m u] at h
    have hbd := hb m u c h
    refine ⟨?_, hbd.2⟩
    simpa using hbd.1
  · intro m1 u1 m2 u2 c h1 h2
    rw [lex_child_set_preserve t n { Lex.getNode t n with word_id := wid } rfl m1 u1] at h1
    rw [lex_child_set_preserve t n { Lex.getNode t n with word_id := wid } rfl m2 u2] at h2
    exact hinj m1 u1 m2 u2 c h1 h2

theorem lex_addFrom_inv (us : List Nat) (wid : Int) (t : Lex.PTree) (n : Nat)
    (hI : Lex.Inv t) :
    Lex.Inv (Lex.addFrom t n us wid) ∧
      t.nodes.length ≤ (Lex.addFrom t n us wid).nodes.length := by
  induction us generalizing t n with
  | nil =>
    rw [lex_addFrom_nil]
    exact ⟨lex_inv_set_word t n wid hI, by simp⟩
  | cons v vs ih =>
    cases hc : Lex.child t n v with
    | some c =>
      rw [lex_addFrom_cons_found t n v c vs wid hc]
      exact ih t c hI
    | none =>
      rw [lex_addFrom_cons_new t n v vs wid hc]
      have hg := lex_inv_grow t n v hI
      have hrec := ih (Lex.grow t n v) t.nodes.length hg
      refine ⟨hrec.1, ?_⟩
      have hlen := lex_grow_length t n v
      have := hrec.2
      omega

theorem lex_addFrom_walk (us : List Nat) (wid : Int) (t : Lex.PTree) (n : Nat)
    (hI : Lex.Inv t) (hn : n < t.nodes.length) :
    ∃ ch, Lex.walk (Lex.addFrom t n us wid) n us = some ch := by
  induction us generalizing t n with
  | nil => exact ⟨[], rfl⟩
  | cons v vs ih =>
    cases hc : Lex.child t n v with
    | some c =>
      rw [lex_addFrom_cons_found t n v c vs wid hc]
      have hcb := hI.1 n v c hc
      obtain ⟨ch, hw⟩ := ih t c hI hcb.1
      exact ⟨c :: ch, lex_walk_cons _ _ _ _ _ _ (lex_child_addFrom vs wid t c n v c hc) hw⟩
    | none =>
      rw [lex_addFrom_cons_new t n v vs wid hc]
      have hg := lex_inv_grow t n v hI
      have hlg : t.nodes.length < (Lex.grow t n v).nodes.length := by
        rw [lex_grow_length]
        omega
      obtain ⟨ch, hw⟩ := ih (Lex.grow t n v) t.nodes.length hg hlg
      have hcg : Lex.child (Lex.grow t n v) n v = some t.nodes.length := by
        rw [lex_child_grow, if_pos ⟨rfl, hn⟩, hc]
        simp
      exact ⟨t.nodes.length :: ch,
        lex_walk_cons _ _ _ _ _ _
          (lex_child_addFrom vs wid (Lex.grow t n v) t.nodes.length n v t.nodes.length hcg)
          hw⟩

theorem lex_endOf_nil (n : Nat) : Lex.endOf n [] = n := rfl

theorem lex_endOf_cons (n c : Nat) (ch : List Nat) :
    Lex.endOf n (c :: ch) = Lex.endOf c ch := by
  unfold Lex.endOf
  exact List.getLast_cons (List.cons_ne_nil c ch)

theorem lex_walk_append_inv (p q : List Nat) (t : Lex.PTree) (n : Nat) (ch : List Nat)
    (h : Lex.walk t n (p ++ q) = some ch) :
    ∃ ch1 ch2, Lex.walk t n p = some ch1 ∧
      Lex.walk t (Lex.endOf n ch1) q = some ch2 ∧ ch = ch1 ++ ch2 := by
  induction p generalizing n ch with
  | nil =>
    refine ⟨[], ch, rfl, ?_, rfl⟩
    rw [lex_endOf_nil]
    simpa using h
  | cons v p2 ih =>
    rw [List.cons_append] at h
    obtain ⟨c, ch2, hc, hw, hch⟩ := walk_cons_inv h
    obtain ⟨d1, d2, hw1, hw2, hd⟩ := ih c ch2 hw
    subst hch hd
    refine ⟨c :: d1, d2, lex_walk_cons _ _ _ _ _ _ hc hw1, ?_, rfl⟩
    rw [lex_endOf_cons]
    exact hw2

theorem lex_walk_snoc (t : Lex.PTree) (n : Nat) (p ch : List Nat) (u c : Nat)
    (h : Lex.walk t n p = some ch) (hc : Lex.child t (Lex.endOf n ch) u = some c) :
    Lex.walk t n (p ++ [u]) = some (ch ++ [c]) := by
  induction p generalizing n ch with
  | nil =>
    have h2 : ch = [] := by
      rw [lex_walk_nil] at h
      injection h with h3
      exact h3.symm
    subst h2
    rw [lex_endOf_nil] at hc
    simp [Lex.walk, hc]
  | cons v p2 ih =>
    obtain ⟨d, ch2, hcv, hw, hch⟩ := walk_cons_inv h
    subst hch
    rw [lex_endOf_cons] at hc
    rw [List.cons_append]
    exact lex_walk_cons _ _ _ _ _ _ hcv (ih d ch2 hw hc)

theorem lex_initial_child (m u : Nat) : Lex.child Lex.initialTree m u = none := by
  cases m <;> rfl

theorem lex_initial_inv : Lex.Inv Lex.initialTree := by
  constructor
  · intro m u c h
    rw [lex_initial_child] at h
    exact Option.noConfusion h
  · intro m1 u1 m2 u2 c h1 h2
    rw [lex_initial_child] at h1
    exact Option.noConfusion h1

theorem lex_fold_inv (ws : List (List Nat × Int)) (t0 : Lex.PTree) (hI : Lex.Inv t0)
    (h0 : 0 < t0.nodes.length) :
    Lex.Inv (ws.foldl (fun t w => Lex.add_word t w.1 w.2) t0) ∧
      0 < (ws.foldl (fun t w => Lex.add_word t w.1 w.2) t0).nodes.length := by
  induction ws generalizing t0 with
  | nil => exact ⟨hI, h0⟩
  | cons w ws2 ih =>
    rw [List.foldl_cons]
    have h1 := lex_addFrom_inv w.1 w.2 t0 Lex.rootId hI
    refine ih (Lex.add_word t0 w.1 w.2) h1.1 ?_
    have h2 := h1.2
    unfold Lex.add_word
    omega

theorem lex_fold_walk_preserve (ws : List (List Nat × Int)) (t0 : Lex.PTree) (m : Nat)
    (p ch : List Nat) (h : Lex.walk t0 m p = some ch) :
    Lex.walk (ws.foldl (fun t w => Lex.add_word t w.1 w.2) t0) m p = some ch := by
  induction ws generalizing t0 with
  | nil => exact h
  | cons w ws2 ih =>
    rw [List.foldl_cons]
    exact ih (Lex.add_word t0 w.1 w.2) (lex_walk_addFrom p w.1 w.2 t0 Lex.rootId m ch h)

theorem lex_fold_walk (ws : List (List Nat × Int)) (t0 : Lex.PTree) (hI : Lex.Inv t0)
    (h0 : 0 < t0.nodes.length) (us : List Nat) (w : Int) (hmem : (us, w) ∈ ws) :
    ∃ ch, Lex.walk (ws.foldl (fun t w => Lex.add_word t w.1 w.2) t0) Lex.rootId us =
      some ch := by
  induction ws generalizing t0 with
  | nil => cases hmem
  | cons hd tl ih =>
    rw [List.foldl_cons]
    rcases List.mem_cons.mp hmem with heq | htl
    · have hus : us = hd.1 := by rw [← heq]
      subst hus
      obtain ⟨ch, hw⟩ := lex_addFrom_walk hd.1 hd.2 t0 Lex.rootId hI h0
      exact ⟨ch, lex_fold_walk_preserve tl (Lex.add_word t0 hd.1 hd.2) Lex.rootId hd.1 ch hw⟩
    · have h1 := lex_addFrom_inv hd.1 hd.2 t0 Lex.rootId hI
      refine ih (Lex.add_word t0 hd.1 hd.2) h1.1 ?_ htl
      have h2 := h1.2
      unfold Lex.add_word
      omega

/-- C4: in the tree built by adding every vocabulary word with add_word and
closing construction with finish_tree, any two words sharing a unit-sequence
prefix are reached through one shared chain of node ids for the common
prefix (walk is a function of the tree, so both words traverse exactly these
nodes), and at the first differing unit the two words continue through
distinct arcs leading to distinct nodes. -/
theorem add_word_shares_common_prefix_chain
    (ws : List (List Nat × Int)) (p r1 r2 : List Nat) (a b : Nat) (w1 w2 : Int)
    (hab : a ≠ b)
    (h1 : (p ++ a :: r1, w1) ∈ ws)
    (h2 : (p ++ b :: r2, w2) ∈ ws) :
    ∃ ch c1 c2,
      Lex.walk (Lex.buildTree ws) Lex.rootId p = some ch ∧
      Lex.walk (Lex.buildTree ws) Lex.rootId (p ++ [a]) = some (ch ++ [c1]) ∧
      Lex.walk (Lex.buildTree ws) Lex.rootId (p ++ [b]) = some (ch ++ [c2]) ∧
      c1 ≠ c2 := by
  have hI0 := lex_initial_inv
  have h00 : 0 < Lex.initialTree.nodes.length := by
    rw [show Lex.initialTree.nodes.length = 1 from rfl]
    omega
  have hbuild : Lex.buildTree ws =
      ws.foldl (fun t w => Lex.add_word t w.1 w.2) Lex.initialTree := rfl
  obtain ⟨chA, hwA⟩ := lex_fold_walk ws Lex.initialTree hI0 h00 (p ++ a :: r1) w1 h1
  obtain ⟨chB, hwB⟩ := lex_fold_walk ws Lex.initialTree hI0 h00 (p ++ b :: r2) w2 h2
  obtain ⟨ch1, ch2, hp1, hq1, hcat1⟩ := lex_walk_append_inv p (a :: r1) _ _ _ hwA
  obtain ⟨ch1', ch2', hp2, hq2, hcat2⟩ := lex_walk_append_inv p (b :: r2) _ _ _ hwB
  have hdet : ch1' = ch1 := by
    have h3 := hp1.symm.trans hp2
    injection h3 with h4
    exact h4.symm
  rw [hdet] at hp2 hq2
  obtain ⟨c1, cc1, hca, hwa2, hcc1⟩ := walk_cons_inv hq1
  obtain ⟨c2, cc2, hcb, hwb2, hcc2⟩ := walk_cons_inv hq2
  have hInv := (lex_fold_inv ws Lex.initialTree hI0 h00).1
  have hne : c1 ≠ c2 := by
    intro hcc
    apply hab
    rw [← hcc] at hcb
    exact (hInv.2 _ a _ b c1 hca hcb).2
  refine ⟨ch1, c1, c2, ?_, ?_, ?_, hne⟩
  · rw [hbuild]
    exact hp1
  · rw [hbuild]
    exact lex_walk_snoc _ _ _ _ _ _ hp1 hca
  · rw [hbuild]
    exact lex_walk_snoc _ _ _ _ _ _ hp2 hcb

/-- Witness for C4: the words with unit sequences 1-2-3 and 1-2-4 (the CAT /
CAR scenario) share the chain of the common prefix 1-2 and then branch to
distinct nodes. -/
theorem add_word_shares_common_prefix_chain_witness :
    ∃ ch c1 c2,
      Lex.walk (Lex.buildTree [([1, 2, 3], 10), ([1, 2, 4], 11)]) Lex.rootId [1, 2] =
        some ch ∧
      Lex.walk (Lex.buildTree [([1, 2, 3], 10), ([1, 2, 4], 11)]) Lex.rootId
          ([1, 2] ++ [3]) = some (ch ++ [c1]) ∧
      Lex.walk (Lex.buildTree [([1, 2, 3], 10), ([1, 2, 4], 11)]) Lex.rootId
          ([1, 2] ++ [4]) = some (ch ++ [c2]) ∧
      c1 ≠ c2 :=
  add_word_shares_common_prefix_chain [([1, 2, 3], 10), ([1, 2, 4], 11)] [1, 2] [] [] 3 4
    10 11 (by decide) (by decide) (by decide)

theorem hist_getRec_set (a : Hist.Arena) (i k : Nat) (r : Hist.HRec) :
    Hist.getRec (a.set i r) k = if k = i ∧ i < a.length then r else Hist.getRec a k :=
  getD_set_general a i k r Hist.dflt

theorem hist_cContrib_nonneg (r : Hist.HRec) (j : Nat) : 0 ≤ Hist.cContrib r j := by
  unfold Hist.cContrib
  split <;> norm_num

theorem hist_cContrib_le_one (r : Hist.HRec) (j : Nat) : Hist.cContrib r j ≤ 1 := by
  unfold Hist.cContrib
  split <;> norm_num

theorem hist_cContrib_same (r r2 : Hist.HRec) (j : Nat) (hl : r2.live = r.live)
    (hp : r2.previous = r.previous) : Hist.cContrib r2 j = Hist.cContrib r j := by
  unfold Hist.cContrib
  rw [hl, hp]

theorem hist_holdersZ_nonneg (a : Hist.Arena) (j : Nat) : 0 ≤ Hist.holdersZ a j :=
  Finset.sum_nonneg (fun i _ => hist_cContrib_nonneg (Hist.getRec a i) j)

theorem hist_holdersZ_set (a : Hist.Arena) (i : Nat) (r : Hist.HRec) (j : Nat)
    (hi : i < a.length) :
    Hist.holdersZ (a.set i r) j =
      Hist.holdersZ a j - Hist.cContrib (Hist.getRec a i) j + Hist.cContrib r j := by
  unfold Hist.holdersZ
  rw [List.length_set]
  have hmem : i ∈ Finset.range a.length := Finset.mem_range.mpr hi
  rw [← Finset.sum_erase_add _ _ hmem, ← Finset.sum_erase_add _ _ hmem]
  have hcongr :
      ∑ k in (Finset.range a.length).erase i, Hist.cContrib (Hist.getRec (a.set i r) k) j =
        ∑ k in (Finset.range a.length).erase i, Hist.cContrib (Hist.getRec a k) j := by
    apply Finset.sum_congr rfl
    intro k hk
    have hki : k ≠ i := (Finset.mem_erase.mp hk).1
    rw [hist_getRec_set, if_neg (by tauto)]
  rw [hcongr, hist_getRec_set, if_pos ⟨rfl, hi⟩]
  ring

theorem hist_holdersZ_pos (a : Hist.Arena) (k j : Nat) (hk : k < a.length)
    (hlv : (Hist.getRec a k).live = true) (hp : (Hist.getRec a k).previous = some j) :
    1 ≤ Hist.holdersZ a j := by
  have h1 : Hist.cContrib (Hist.getRec a k) j = 1 := by
    unfold Hist.cContrib
    rw [if_pos ⟨hlv, hp⟩]
  have h2 := Finset.single_le_sum
    (f := fun m => Hist.cContrib (Hist.getRec a m) j)
    (fun m _ => hist_cContrib_nonneg (Hist.getRec a m) j)
    (Finset.mem_range.mpr hk)
  simp only at h2
  rw [h1] at h2
  exact h2

theorem hist_holdersZ_mono (a a2 : Hist.Arena) (hlen : a2.length = a.length)
    (hlive : ∀ k, (Hist.getRec a2 k).live = true → (Hist.getRec a k).live = true)
    (hprev : ∀ k, (Hist.getRec a2 k).previous = (Hist.getRec a k).previous) (j : Nat) :
    Hist.holdersZ a2 j ≤ Hist.holdersZ a j := by
  unfold Hist.holdersZ
  rw [hlen]
  apply Finset.sum_le_sum
  intro k _
  unfold Hist.cContrib
  by_cases h2 : (Hist.getRec a2 k).live = true ∧ (Hist.getRec a2 k).previous = some j
  · rw [if_pos h2, if_pos ⟨hlive k h2.1, by rw [← hprev k]; exact h2.2⟩]
  · rw [if_neg h2]
    split <;> norm_num

theorem hist_prevOk_iff (a : Hist.Arena) (i : Nat) :
    Hist.prevOk a i ↔
      ∀ j, (Hist.getRec a i).previous = some j → j < i ∧ (Hist.getRec a j).live = true := by
  unfold Hist.prevOk
  cases hp : (Hist.getRec a i).previous with
  | none => simp
  | some j => simp

theorem hist_cContrib_mono (r r2 : Hist.HRec) (j : Nat)
    (hp : r2.previous = r.previous) (hlv : r2.live = true → r.live = true) :
    Hist.cContrib r2 j ≤ Hist.cContrib r j := by
  unfold Hist.cContrib
  by_cases h : r2.live = true ∧ r2.previous = some j
  · rw [if_pos h, if_pos ⟨hlv h.1, by rw [← hp]; exact h.2⟩]
  · rw [if_neg h]
    split <;> norm_num

theorem hist_wf_update (a : Hist.Arena) (i : Nat) (r2 : Hist.HRec)
    (hW : Hist.Wf a) (hi : i < a.length)
    (hp : r2.previous = (Hist.getRec a i).previous)
    (hlv : r2.live = true → (Hist.getRec a i).live = true)
    (hrci : Hist.holdersZ a i ≤ r2.reference_count)
    (hfree : r2.live = false → Hist.holdersZ a i = 0)
    (hrc0 : r2.live = false → r2.reference_count = 0) :
    Hist.Wf (a.set i r2) := by
  intro k hk
  rw [List.length_set] at hk
  obtain ⟨h1, h2, h3⟩ := hW k hk
  have hhold : Hist.holdersZ (a.set i r2) k =
      Hist.holdersZ a k - Hist.cContrib (Hist.getRec a i) k + Hist.cContrib r2 k :=
    hist_holdersZ_set a i r2 k hi
  by_cases hki : k = i
  · subst hki
    refine ⟨?_, ?_, ?_⟩
    · intro hl2
      rw [hist_getRec_set, if_pos ⟨rfl, hi⟩] at hl2
      rw [hist_prevOk_iff]
      intro j hj
      rw [hist_getRec_set, if_pos ⟨rfl, hi⟩, hp] at hj
      have hold1 := (hist_prevOk_iff a k).mp (h1 (hlv hl2)) j hj
      refine ⟨hold1.1, ?_⟩
      rw [hist_getRec_set, if_neg (fun hc => by omega)]
      exact hold1.2
    · rw [hhold, hist_getRec_set, if_pos ⟨rfl, hi⟩]
      have hmono := hist_cContrib_mono (Hist.getRec a k) r2 k hp hlv
      omega
    · intro hd
      rw [hist_getRec_set, if_pos ⟨rfl, hi⟩] at hd ⊢
      exact hrc0 hd
  · refine ⟨?_, ?_, ?_⟩
    · intro hl2
      rw [hist_getRec_set, if_neg (fun hc => hki hc.1)] at hl2
      rw [hist_prevOk_iff]
      intro j hj
      rw [hist_getRec_set, if_neg (fun hc => hki hc.1)] at hj
      have hold1 := (hist_prevOk_iff a k).mp (h1 hl2) j hj
      refine ⟨hold1.1, ?_⟩
      by_cases hji : j = i
      · subst hji
        rw [hist_getRec_set, if_pos ⟨rfl, hi⟩]
        by_cases hr2 : r2.live = true
        · exact hr2
        · exfalso
          have h0 := hfree (by simpa using hr2)
          have h1p := hist_holdersZ_pos a k j hk hl2 hj
          omega
      · rw [hist_getRec_set, if_neg (fun hc => hji hc.1)]
        exact hold1.2
    · rw [hhold, hist_getRec_set, if_neg (fun hc => hki hc.1)]
      have hmono := hist_cContrib_mono (Hist.getRec a i) r2 k hp hlv
      omega
    · intro hd
      rw [hist_getRec_set, if_neg (fun hc => hki hc.1)] at hd ⊢
      exact h3 hd

theorem hist_link_length (a : Hist.Arena) (i : Nat) :
    (Hist.link a i).length = a.length := by
  unfold Hist.link
  exact List.length_set a i _

theorem hist_wf_link (a : Hist.Arena) (i : Nat) (hW : Hist.Wf a) (hi : i < a.length)
    (hlive : (Hist.getRec a i).live = true) : Hist.Wf (Hist.link a i) := by
  unfold Hist.link
  apply hist_wf_update a i
    { Hist.getRec a i with reference_count := (Hist.getRec a i).reference_count + 1 }
    hW hi rfl (fun h => h)
  · have h2 := (hW i hi).2.1
    have h3 : ({ Hist.getRec a i with
        reference_count := (Hist.getRec a i).reference_count + 1 }).reference_count =
      (Hist.getRec a i).reference_count + 1 := rfl
    omega
  · intro h
    have h2 : (Hist.getRec a i).live = false := h
    rw [hlive] at h2
    exact Bool.noConfusion h2
  · intro h
    have h2 : (Hist.getRec a i).live = false := h
    rw [hlive] at h2
    exact Bool.noConfusion h2

theorem hist_unlinkFuel_dec (fuel : Nat) (a : Hist.Arena) (i : Nat)
    (hlive : (Hist.getRec a i).live = true)
    (hrc : (Hist.getRec a i).reference_count - 1 ≠ 0) :
    Hist.unlinkFuel (fuel+1) a i =
      a.set i { Hist.getRec a i with
        reference_count := (Hist.getRec a i).reference_count - 1 } := by
  unfold Hist.unlinkFuel
  rw [if_pos hlive, if_neg hrc]

theorem hist_unlinkFuel_free_none (fuel : Nat) (a : Hist.Arena) (i : Nat)
    (hlive : (Hist.getRec a i).live = true)
    (hrc : (Hist.getRec a i).reference_count - 1 = 0)
    (hp : (Hist.getRec a i).previous = none) :
    Hist.unlinkFuel (fuel+1) a i =
      a.set i { Hist.getRec a i with reference_count := 0, live := false } := by
  unfold Hist.unlinkFuel
  rw [if_pos hlive, if_pos hrc, hp]

theorem hist_unlinkFuel_free_some (fuel : Nat) (a : Hist.Arena) (i j : Nat)
    (hlive : (Hist.getRec a i).live = true)
    (hrc : (Hist.getRec a i).reference_count - 1 = 0)
    (hp : (Hist.getRec a i).previous = some j) :
    Hist.unlinkFuel (fuel+1) a i =
      Hist.unlinkFuel fuel
        (a.set i { Hist.getRec a i with reference_count := 0, live := false }) j := by
  conv_lhs => unfold Hist.unlinkFuel
  rw [if_pos hlive, if_pos hrc, hp]

theorem hist_unlinkFuel_spec :
    ∀ (fuel : Nat) (a : Hist.Arena) (i : Nat), i < fuel → Hist.Wf a → i < a.length →
      (Hist.getRec a i).live = true →
      Hist.holdersZ a i < (Hist.getRec a i).reference_count →
      Hist.Wf (Hist.unlinkFuel fuel a i) ∧
      (Hist.unlinkFuel fuel a i).length = a.length ∧
      (∀ k, i < k → Hist.getRec (Hist.unlinkFuel fuel a i) k = Hist.getRec a k) ∧
      (∀ k, (Hist.getRec (Hist.unlinkFuel fuel a i) k).live = true →
        (Hist.getRec a k).live = true) ∧
      (∀ k, (Hist.getRec (Hist.unlinkFuel fuel a i) k).previous =
        (Hist.getRec a k).previous) ∧
      ((Hist.getRec a i).reference_count = 1 →
        Hist.getRec (Hist.unlinkFuel fuel a i) i =
          { Hist.getRec a i with reference_count := 0, live := false }) ∧
      ((Hist.getRec a i).reference_count ≠ 1 →
        Hist.getRec (Hist.unlinkFuel fuel a i) i =
          { Hist.getRec a i with
            reference_count := (Hist.getRec a i).reference_count - 1 }) := by
  intro fuel
  induction fuel with
  | zero =>
    intro a i hif
    omega
  | succ fuel ih =>
    intro a i hif hW hi hlive hrc
    by_cases hone : (Hist.getRec a i).reference_count - 1 = 0
    · have h0 : Hist.holdersZ a i = 0 := by
        have hnn := hist_holdersZ_nonneg a i
        omega
      have hrc2 : ({ Hist.getRec a i with
          reference_count := 0, live := false } : Hist.HRec).reference_count = 0 := rfl
      cases hp : (Hist.getRec a i).previous with
      | none =>
        rw [hist_unlinkFuel_free_none fuel a i hlive hone hp]
        refine ⟨?_, List.length_set a i _, ?_, ?_, ?_, ?_, ?_⟩
        · exact hist_wf_update a i
            { Hist.getRec a i with reference_count := 0, live := false }
            hW hi rfl (fun h => Bool.noConfusion h) (by omega) (fun _ => h0) (fun _ => rfl)
        · intro k hk
          rw [hist_getRec_set, if_neg (fun hc => by omega)]
        · intro k hk
          rw [hist_getRec_set] at hk
          by_cases hki : k = i
          · subst hki
            rw [if_pos ⟨rfl, hi⟩] at hk
            exact Bool.noConfusion hk
          · rw [if_neg (fun hc => hki hc.1)] at hk
            exact hk
        · intro k
          rw [hist_getRec_set]
          by_cases hki : k = i
          · subst hki
            rw [if_pos ⟨rfl, hi⟩]
          · rw [if_neg (fun hc => hki hc.1)]
        · intro h1r
          rw [hist_getRec_set, if_pos ⟨rfl, hi⟩]
        · intro hne
          exact absurd (by omega) hne
      | some j =>
        rw [hist_unlinkFuel_free_some fuel a i j hlive hone hp]
        have hWa2 : Hist.Wf (a.set i
            { Hist.getRec a i with reference_count := 0, live := false }) :=
          hist_wf_update a i
            { Hist.getRec a i with reference_count := 0, live := false }
            hW hi rfl (fun h => Bool.noConfusion h) (by omega) (fun _ => h0) (fun _ => rfl)
        have hlen2 : (a.set i
            { Hist.getRec a i with reference_count := 0, live := false }).length =
            a.length := List.length_set a i _
        have hpOk := (hist_prevOk_iff a i).mp ((hW i hi).1 hlive) j hp
        have hji : j < i := hpOk.1
        have hjl : (Hist.getRec a j).live = true := hpOk.2
        have hga2j : Hist.getRec (a.set i
            { Hist.getRec a i with reference_count := 0, live := false }) j =
            Hist.getRec a j := by
          rw [hist_getRec_set, if_neg (fun hc => by omega)]
        have hch : Hist.cContrib (Hist.getRec a i) j = 1 := by
          unfold Hist.cContrib
          rw [if_pos ⟨hlive, hp⟩]
        have hch2 : Hist.cContrib
            ({ Hist.getRec a i with reference_count := 0, live := false } : Hist.HRec) j =
            0 := by
          unfold Hist.cContrib
          rw [if_neg (fun hc => Bool.noConfusion hc.1)]
        have hh2 : Hist.holdersZ (a.set i
            { Hist.getRec a i with reference_count := 0, live := false }) j =
            Hist.holdersZ a j - 1 := by
          rw [hist_holdersZ_set a i _ j hi, hch, hch2]
          ring
        have hWj := (hW j (by omega)).2.1
        have hposj : 1 ≤ Hist.holdersZ a j := hist_holdersZ_pos a i j hi hlive hp
        have hprec : Hist.holdersZ (a.set i
            { Hist.getRec a i with reference_count := 0, live := false }) j <
            (Hist.getRec (a.set i
              { Hist.getRec a i with reference_count := 0, live := false }) j).reference_count := by
          rw [hga2j, hh2]
          omega
        obtain ⟨c1, c2, c3, c4, c5, c6, c7⟩ :=
          ih (a.set i { Hist.getRec a i with reference_count := 0, live := false }) j
            (by omega) hWa2 (by omega) (by rw [hga2j]; exact hjl) hprec
        refine ⟨c1, by rw [c2, hlen2], ?_, ?_, ?_, ?_, ?_⟩
        · intro k hk
          rw [c3 k (by omega), hist_getRec_set, if_neg (fun hc => by omega)]
        · intro k hk
          have h4 := c4 k hk
          rw [hist_getRec_set] at h4
          by_cases hki : k = i
          · subst hki
            rw [if_pos ⟨rfl, hi⟩] at h4
            exact Bool.noConfusion h4
          · rw [if_neg (fun hc => hki hc.1)] at h4
            exact h4
        · intro k
          have h5 := c5 k
          rw [hist_getRec_set] at h5
          by_cases hki : k = i
          · subst hki
            rw [if_pos ⟨rfl, hi⟩] at h5
            exact h5
          · rw [if_neg (fun hc => hki hc.1)] at h5
            exact h5
        · intro h1r
          rw [c3 i (by omega), hist_getRec_set, if_pos ⟨rfl, hi⟩]
        · intro hne
          exact absurd (by omega) hne
    · rw [hist_unlinkFuel_dec fuel a i hlive hone]
      have hrc3 : ({ Hist.getRec a i with
          reference_count := (Hist.getRec a i).reference_count - 1 } : Hist.HRec).reference_count =
          (Hist.getRec a i).reference_count - 1 := rfl
      refine ⟨?_, List.length_set a i _, ?_, ?_, ?_, ?_, ?_⟩
      · apply hist_wf_update a i
          { Hist.getRec a i with
            reference_count := (Hist.getRec a i).reference_count - 1 }
          hW hi rfl (fun h => h) (by omega)
        · intro h
          have h2 : (Hist.getRec a i).live = false := h
          rw [hlive] at h2
          exact Bool.noConfusion h2
        · intro h
          have h2 : (Hist.getRec a i).live = false := h
          rw [hlive] at h2
          exact Bool.noConfusion h2
      · intro k hk
        rw [hist_getRec_set, if_neg (fun hc => by omega)]
      · intro k hk
        rw [hist_getRec_set] at hk
        by_cases hki : k = i
        · subst hki
          rw [if_pos ⟨rfl, hi⟩] at hk
          exact hk
        · rw [if_neg (fun hc => hki hc.1)] at hk
          exact hk
      · intro k
        rw [hist_getRec_set]
        by_cases hki : k = i
        · subst hki
          rw [if_pos ⟨rfl, hi⟩]
        · rw [if_neg (fun hc => hki hc.1)]
      · intro h1r
        exact absurd (by omega) hone
      · intro hne
        rw [hist_getRec_set, if_pos ⟨rfl, hi⟩]

theorem hist_unlink_eq (a : Hist.Arena) (i : Nat) :
    Hist.unlink a i = Hist.unlinkFuel (i+1) a i := rfl

theorem hist_wf_nonneg (a : Hist.Arena) (hW : Hist.Wf a) (j : Nat) :
    0 ≤ (Hist.getRec a j).reference_count := by
  by_cases hj : j < a.length
  · obtain ⟨h1, h2, h3⟩ := hW j hj
    cases hlv : (Hist.getRec a j).live with
    | true =>
      have hnn := hist_holdersZ_nonneg a j
      omega
    | false =>
      have h4 := h3 hlv
      omega
  · unfold Hist.getRec
    rw [getD_ge a j Hist.dflt (by omega)]
    exact le_refl 0

theorem hist_applyOp_link (a : Hist.Arena) (i : Nat) :
    Hist.applyOp a (Hist.Op.link i) =
      if i < a.length ∧ (Hist.getRec a i).live = true then Hist.link a i else a := rfl

theorem hist_applyOp_unlink (a : Hist.Arena) (i : Nat) :
    Hist.applyOp a (Hist.Op.unlink i) =
      if i < a.length ∧ (Hist.getRec a i).live = true ∧
          Hist.holdersZ a i < (Hist.getRec a i).reference_count
      then Hist.unlink a i else a := rfl

theorem hist_applyOp_wf (a : Hist.Arena) (op : Hist.Op) (hW : Hist.Wf a) :
    Hist.Wf (Hist.applyOp a op) ∧ (Hist.applyOp a op).length = a.length := by
  cases op with
  | link i =>
    rw [hist_applyOp_link]
    by_cases hg : i < a.length ∧ (Hist.getRec a i).live = true
    · rw [if_pos hg]
      exact ⟨hist_wf_link a i hW hg.1 hg.2, hist_link_length a i⟩
    · rw [if_neg hg]
      exact ⟨hW, rfl⟩
  | unlink i =>
    rw [hist_applyOp_unlink]
    by_cases hg : i < a.length ∧ (Hist.getRec a i).live = true ∧
        Hist.holdersZ a i < (Hist.getRec a i).reference_count
    · rw [if_pos hg]
      have hspec := hist_unlinkFuel_spec (i+1) a i (by omega) hW hg.1 hg.2.1 hg.2.2
      exact ⟨hspec.1, hspec.2.1⟩
    · rw [if_neg hg]
      exact ⟨hW, rfl⟩

theorem hist_applyOps_wf (ops : List Hist.Op) (a : Hist.Arena) (hW : Hist.Wf a) :
    Hist.Wf (Hist.applyOps a ops) := by
  induction ops generalizing a with
  | nil => exact hW
  | cons op ops2 ih => exact ih (Hist.applyOp a op) (hist_applyOp_wf a op hW).1

theorem hist_tail_release (N : Nat) :
    ∀ (a : Hist.Arena) (t : Nat), Hist.Wf a → t < a.length →
      (Hist.getRec a t).live = true → Hist.holdersZ a t = 0 →
      (Hist.getRec a t).reference_count = (N : Int) → 0 < N →
      ∀ k, k ≤ N →
        ((Hist.getRec (Hist.applyOps a (List.replicate k (Hist.Op.unlink t))) t).live = true ↔
          k < N) := by
  induction N with
  | zero =>
    intro a t _ _ _ _ _ hpos
    exact absurd hpos (by omega)
  | succ N ihN =>
    intro a t hW ht hlive h0 hN hpos k hk
    cases k with
    | zero =>
      exact ⟨fun _ => by omega, fun _ => hlive⟩
    | succ k2 =>
      have hrcpos : Hist.holdersZ a t < (Hist.getRec a t).reference_count := by
        rw [h0, hN]
        push_cast
        omega
      have happ2 : Hist.applyOp a (Hist.Op.unlink t) = Hist.unlink a t := by
        rw [hist_applyOp_unlink, if_pos ⟨ht, hlive, hrcpos⟩]
      have hstep : Hist.applyOps a (List.replicate (k2+1) (Hist.Op.unlink t)) =
          Hist.applyOps (Hist.unlink a t) (List.replicate k2 (Hist.Op.unlink t)) := by
        rw [show List.replicate (k2+1) (Hist.Op.unlink t) =
          Hist.Op.unlink t :: List.replicate k2 (Hist.Op.unlink t) from rfl]
        rw [show Hist.applyOps a (Hist.Op.unlink t :: List.replicate k2 (Hist.Op.unlink t)) =
          Hist.applyOps (Hist.applyOp a (Hist.Op.unlink t))
            (List.replicate k2 (Hist.Op.unlink t)) from rfl]
        rw [happ2]
      rw [hstep]
      obtain ⟨s1, s2, s3, s4, s5, s6, s7⟩ :=
        hist_unlinkFuel_spec (t+1) a t (by omega) hW ht hlive hrcpos
      by_cases hN1 : N = 0
      · subst hN1
        have hk2 : k2 = 0 := by omega
        subst hk2
        have hfree := s6 (by rw [hN]; norm_num)
        constructor
        · intro hl
          have hl2 : (Hist.getRec (Hist.unlink a t) t).live = true := hl
          rw [hist_unlink_eq, hfree] at hl2
          exact Bool.noConfusion hl2
        · intro hcontra
          exact absurd hcontra (by omega)
      · have hdec := s7 (by
          rw [hN]
          intro he
          have : ((N + 1 : Nat) : Int) = 1 := he
          omega)
        have hlive2 : (Hist.getRec (Hist.unlink a t) t).live = true := by
          rw [hist_unlink_eq, hdec]
          exact hlive
        have hlen2 : (Hist.unlink a t).length = a.length := by
          rw [hist_unlink_eq]
          exact s2
        have hmono := hist_holdersZ_mono a (Hist.unlink a t)
          (by rw [hist_unlink_eq]; exact s2)
          (by intro m; rw [hist_unlink_eq]; exact s4 m)
          (by intro m; rw [hist_unlink_eq]; exact s5 m) t
        have hnn := hist_holdersZ_nonneg (Hist.unlink a t) t
        have h02 : Hist.holdersZ (Hist.unlink a t) t = 0 := by omega
        have hN2 : (Hist.getRec (Hist.unlink a t) t).reference_count = (N : Int) := by
          rw [hist_unlink_eq, hdec]
          have hproj : ({ Hist.getRec a t with
              reference_count := (Hist.getRec a t).reference_count - 1 } :
                Hist.HRec).reference_count =
              (Hist.getRec a t).reference_count - 1 := rfl
          rw [hproj, hN]
          push_cast
          omega
        have hres := ihN (Hist.unlink a t) t
          (by rw [hist_unlink_eq]; exact s1)
          (by omega) hlive2 h02 hN2 (by omega) k2 (by omega)
        rw [hres]
        omega

/-- C5: under any sequence of guarded link and unlink requests,
well-formedness of the history arena is preserved and every reference count
stays nonnegative; and a tail record (no live child records) held by N
holders is released exactly when all N holders have released it: after k of
N unlink operations the record is live if and only if k < N. -/
theorem history_chain_refcount_safety :
    (∀ (ops : List Hist.Op) (a : Hist.Arena) (j : Nat), Hist.Wf a →
      Hist.Wf (Hist.applyOps a ops) ∧
      0 ≤ (Hist.getRec (Hist.applyOps a ops) j).reference_count) ∧
    (∀ (a : Hist.Arena) (t N k : Nat), Hist.Wf a → t < a.length →
      (Hist.getRec a t).live = true → Hist.holdersZ a t = 0 →
      (Hist.getRec a t).reference_count = (N : Int) → 0 < N → k ≤ N →
      ((Hist.getRec (Hist.applyOps a (List.replicate k (Hist.Op.unlink t))) t).live = true ↔
        k < N)) := by
  constructor
  · intro ops a j hW
    have h1 := hist_applyOps_wf ops a hW
    exact ⟨h1, hist_wf_nonneg _ h1 j⟩
  · intro a t N k hW ht hlive h0 hN hpos hk
    exact hist_tail_release N a t hW ht hlive h0 hN hpos k hk

/-- Witness for C5: a two-record chain whose tail is held twice; after both
releases the tail is no longer live, and guarded operations keep counts
nonnegative. -/
theorem history_chain_refcount_safety_witness :
    (Hist.Wf (Hist.applyOps [⟨none, 1, true⟩, ⟨some 0, 2, true⟩]
        [Hist.Op.link 1, Hist.Op.unlink 1]) ∧
      0 ≤ (Hist.getRec (Hist.applyOps [⟨none, 1, true⟩, ⟨some 0, 2, true⟩]
        [Hist.Op.link 1, Hist.Op.unlink 1]) 1).reference_count) ∧
    ((Hist.getRec (Hist.applyOps [⟨none, 1, true⟩, ⟨some 0, 2, true⟩]
        (List.replicate 2 (Hist.Op.unlink 1))) 1).live = true ↔ 2 < 2) :=
  ⟨history_chain_refcount_safety.1 [Hist.Op.link 1, Hist.Op.unlink 1]
      [⟨none, 1, true⟩, ⟨some 0, 2, true⟩] 1 (by decide),
   history_chain_refcount_safety.2 [⟨none, 1, true⟩, ⟨some 0, 2, true⟩] 1 2 2
      (by decide) (by decide) (by decide) (by decide) (by decide) (by decide) (by decide)⟩
